import Mathlib

/-!
Verification of the PDF-to-MP3 conversion pipeline
(`src/routes/pdf_converter_optimized.py`).

The development shallowly embeds the conversion core: the text chunker,
the retry wrappers around the speech-synthesis backend, the chunk
assembler with temp-file cleanup, the timeout-bounded supervisor, and
the upload handler's validation, truncation and error-cleanup logic.
The filesystem is modelled as an association list from paths to byte
lists; the unreliable backend is a parameter mapping (chunk index,
attempt number) to a result.
-/

namespace PdfToMp3

/-- Paths touched by one conversion request: the uploaded PDF, the MP3
destination path, and the per-chunk temp files `output_path.chunk_i.mp3`. -/
inductive FPath where
  | pdf
  | out
  | chunk (i : Nat)
deriving DecidableEq, Repr

/-- File contents, as abstract byte lists. -/
abbrev Bytes := List Nat

/-- The filesystem: an association list from paths to contents. -/
abbrev Fs := List (FPath × Bytes)

/-- Read a file: the first entry for the path, if any. -/
def fsRead (p : FPath) : Fs → Option Bytes
  | [] => none
  | e :: rest => if e.1 = p then some e.2 else fsRead p rest

/-- Delete a file (all entries for the path). -/
def fsErase (p : FPath) : Fs → Fs
  | [] => []
  | e :: rest => if e.1 = p then fsErase p rest else e :: fsErase p rest

/-- Create or overwrite a file (Python `open(path, 'wb')` then write). -/
def fsWrite (p : FPath) (b : Bytes) (fs : Fs) : Fs :=
  (p, b) :: fsErase p fs

/-- Append bytes to a file, creating it when absent (a further
`outfile.write` on an already-open `'wb'` handle). -/
def fsAppend (p : FPath) (b : Bytes) (fs : Fs) : Fs :=
  match fsRead p fs with
  | some old => fsWrite p (old ++ b) fs
  | none => fsWrite p b fs

theorem fsRead_write_self (p : FPath) (b : Bytes) (fs : Fs) :
    fsRead p (fsWrite p b fs) = some b := by
  simp [fsWrite, fsRead]

theorem fsRead_erase_self (p : FPath) (fs : Fs) :
    fsRead p (fsErase p fs) = none := by
  induction fs with
  | nil => simp [fsErase, fsRead]
  | cons e rest ih =>
    by_cases h : e.1 = p <;> simp [fsErase, fsRead, h, ih]

theorem fsRead_erase_ne (p q : FPath) (fs : Fs) (h : q ≠ p) :
    fsRead q (fsErase p fs) = fsRead q fs := by
  induction fs with
  | nil => simp [fsErase]
  | cons e rest ih =>
    have h' : ¬ p = q := fun hc => h hc.symm
    by_cases he : e.1 = p
    · simp [fsErase, fsRead, he, h', ih]
    · by_cases hq : e.1 = q <;> simp [fsErase, fsRead, he, hq, h, ih]

theorem fsRead_write_ne (p q : FPath) (b : Bytes) (fs : Fs) (h : q ≠ p) :
    fsRead q (fsWrite p b fs) = fsRead q fs := by
  have h' : p ≠ q := fun hc => h hc.symm
  simp [fsWrite, fsRead, h', fsRead_erase_ne p q fs h]

theorem fsRead_append_ne (p q : FPath) (b : Bytes) (fs : Fs) (h : q ≠ p) :
    fsRead q (fsAppend p b fs) = fsRead q fs := by
  unfold fsAppend
  cases fsRead p fs <;> simp [fsRead_write_ne p q _ fs h]

theorem fsRead_append_self (p : FPath) (b old : Bytes) (fs : Fs)
    (h : fsRead p fs = some old) :
    fsRead p (fsAppend p b fs) = some (old ++ b) := by
  simp [fsAppend, h, fsRead_write_self]

/-- Fuel-driven helper for `pyRangeStep`; the fuel bounds the number of
produced indices so the recursion is structural (and hence computable by
the kernel). -/
def pyRangeAux (stop step : Nat) : Nat → Nat → List Nat
  | 0, _ => []
  | fuel + 1, start =>
    if start < stop ∧ 0 < step then
      start :: pyRangeAux stop step fuel (start + step)
    else
      []

/-- Python `range(start, stop, step)` for a positive step: the indices
`start, start+step, ...` below `stop` (source line 95 uses
`range(0, len(text), max_chunk_size)`). -/
def pyRangeStep (start stop step : Nat) : List Nat :=
  pyRangeAux stop step (stop - start) start

theorem pyRangeAux_fuel {stop step : Nat} :
    ∀ f1 f2 start, stop - start ≤ f1 → stop - start ≤ f2 →
      pyRangeAux stop step f1 start = pyRangeAux stop step f2 start := by
  intro f1
  induction f1 with
  | zero =>
    intro f2 start h1 h2
    cases f2 with
    | zero => rfl
    | succ g =>
      have : ¬ start < stop := by omega
      simp [pyRangeAux, this]
  | succ f ih =>
    intro f2 start h1 h2
    cases f2 with
    | zero =>
      have : ¬ start < stop := by omega
      simp [pyRangeAux, this]
    | succ g =>
      by_cases hc : start < stop ∧ 0 < step
      · simp only [pyRangeAux, if_pos hc]
        rw [ih g (start + step) (by omega) (by omega)]
      · simp [pyRangeAux, hc]

theorem pyRangeStep_cons {start stop step : Nat} (h1 : start < stop) (h2 : 0 < step) :
    pyRangeStep start stop step = start :: pyRangeStep (start + step) stop step := by
  unfold pyRangeStep
  have hfuel : stop - start = (stop - start - 1) + 1 := by omega
  rw [hfuel]
  simp only [pyRangeAux, if_pos (And.intro h1 h2)]
  rw [pyRangeAux_fuel (stop - start - 1) (stop - (start + step)) (start + step)
    (by omega) (by omega)]

theorem pyRangeStep_nil {start stop step : Nat} (h1 : ¬ start < stop) :
    pyRangeStep start stop step = [] := by
  unfold pyRangeStep
  have : stop - start = 0 := by omega
  rw [this]
  rfl

theorem pyRangeStep_nil_of_not {start stop step : Nat}
    (h1 : ¬ (start < stop ∧ 0 < step)) :
    pyRangeStep start stop step = [] := by
  unfold pyRangeStep
  cases hf : stop - start with
  | zero => rfl
  | succ g => simp [pyRangeAux, h1]

/-- The chunker (source line 95):
`chunks = [text[i:i+max_chunk_size] for i in range(0, len(text), max_chunk_size)]`. -/
def chunkText (n : Nat) (text : List α) : List (List α) :=
  (pyRangeStep 0 text.length n).map fun i => (text.drop i).take n

theorem chunkText_flatten_aux (text : List α) (n : Nat) (hn : 0 < n) :
    ∀ fuel start, text.length - start ≤ fuel →
      ((pyRangeStep start text.length n).map
        (fun i => (text.drop i).take n)).flatten = text.drop start := by
  intro fuel
  induction fuel with
  | zero =>
    intro start hf
    have hle : text.length ≤ start := by omega
    rw [pyRangeStep_nil (by omega)]
    simp [List.drop_eq_nil_of_le hle]
  | succ m ih =>
    intro start hf
    by_cases hlt : start < text.length
    · rw [pyRangeStep_cons hlt hn]
      simp only [List.map_cons, List.flatten_cons]
      rw [ih (start + n) (by omega)]
      have hdd : text.drop (start + n) = (text.drop start).drop n := by
        rw [List.drop_drop]
      rw [hdd]
      exact List.take_append_drop n (text.drop start)
    · rw [pyRangeStep_nil hlt]
      simp [List.drop_eq_nil_of_le (by omega : text.length ≤ start)]

/-- Concatenating the chunker's output reproduces the input. -/
theorem chunkText_flatten (text : List α) (n : Nat) (hn : 0 < n) :
    (chunkText n text).flatten = text := by
  have := chunkText_flatten_aux text n hn (text.length) 0 (by omega)
  simpa [chunkText] using this

theorem pyRangeStep_mem_lt {stop step : Nat} :
    ∀ fuel start, stop - start ≤ fuel →
      ∀ i ∈ pyRangeStep start stop step, i < stop := by
  intro fuel
  induction fuel with
  | zero =>
    intro start hf i hi
    rw [pyRangeStep_nil (by omega)] at hi
    simp at hi
  | succ m ih =>
    intro start hf i hi
    by_cases hlt : start < stop
    · by_cases hs : 0 < step
      · rw [pyRangeStep_cons hlt hs] at hi
        rcases List.mem_cons.mp hi with h | h
        · omega
        · exact ih (start + step) (by omega) i h
      · rw [pyRangeStep_nil_of_not (by tauto)] at hi
        simp at hi
    · rw [pyRangeStep_nil hlt] at hi
      simp at hi

theorem pyRangeStep_mem_dropLast {stop step : Nat} (hs : 0 < step) :
    ∀ fuel start, stop - start ≤ fuel →
      ∀ i ∈ (pyRangeStep start stop step).dropLast, i + step < stop := by
  intro fuel
  induction fuel with
  | zero =>
    intro start hf i hi
    rw [pyRangeStep_nil (by omega)] at hi
    simp at hi
  | succ m ih =>
    intro start hf i hi
    by_cases hlt : start < stop
    · rw [pyRangeStep_cons hlt hs] at hi
      by_cases h2 : start + step < stop
      · rw [pyRangeStep_cons h2 hs] at hi
        rw [List.dropLast_cons₂] at hi
        rcases List.mem_cons.mp hi with h | h
        · omega
        · rw [← pyRangeStep_cons h2 hs] at h
          exact ih (start + step) (by omega) i h
      · rw [pyRangeStep_nil h2] at hi
        simp at hi
    · rw [pyRangeStep_nil hlt] at hi
      simp at hi

theorem pyRangeStep_ex2500 : pyRangeStep 0 2500 1000 = [0, 1000, 2000] := by
  have e1 : pyRangeStep 2000 2500 1000 = [2000] := by
    rw [pyRangeStep_cons (by omega) (by omega), pyRangeStep_nil (by omega)]
  have e2 : pyRangeStep 1000 2500 1000 = [1000, 2000] := by
    rw [pyRangeStep_cons (by omega) (by omega),
      show (1000 + 1000 : Nat) = 2000 by omega, e1]
  rw [pyRangeStep_cons (by omega) (by omega),
    show (0 + 1000 : Nat) = 1000 by omega, e2]

theorem chunkText_ex2500 :
    (chunkText 1000 (List.replicate 2500 (0 : Nat))).map List.length
      = [1000, 1000, 500] := by
  rw [chunkText, List.length_replicate, pyRangeStep_ex2500]
  simp only [List.map_cons, List.map_nil, List.length_take, List.length_drop,
    List.length_replicate]
  norm_num

/-- Claim C1: for every string `s` with `len(s) > 1000`, the chunker
splits `s` into an ordered sequence of chunks whose concatenation in
index order reproduces `s` exactly, every chunk except possibly the
last has length exactly 1000, no chunk is empty, and a 2500-character
text yields exactly three chunks of lengths 1000, 1000, 500. -/
theorem chunker_splits_long_text (s : List α) (h : 1000 < s.length) :
    (chunkText 1000 s).flatten = s ∧
    (∀ c ∈ (chunkText 1000 s).dropLast, c.length = 1000) ∧
    (∀ c ∈ chunkText 1000 s, c ≠ []) ∧
    (chunkText 1000 (List.replicate 2500 (0 : Nat))).map List.length
      = [1000, 1000, 500] := by
  refine ⟨chunkText_flatten s 1000 (by omega), ?_, ?_, chunkText_ex2500⟩
  · intro c hc
    rw [chunkText, ← List.map_dropLast] at hc
    rcases List.mem_map.mp hc with ⟨i, hi, hci⟩
    have hbound : i + 1000 < s.length :=
      pyRangeStep_mem_dropLast (by omega) s.length 0 (by omega) i hi
    subst hci
    simp only [List.length_take, List.length_drop]
    omega
  · intro c hc
    rw [chunkText] at hc
    rcases List.mem_map.mp hc with ⟨i, hi, hci⟩
    have hbound : i < s.length :=
      pyRangeStep_mem_lt s.length 0 (by omega) i hi
    subst hci
    intro hnil
    have := congrArg List.length hnil
    simp only [List.length_take, List.length_drop, List.length_nil] at this
    omega

theorem chunker_splits_long_text_witness :
    1000 < (List.replicate 1001 (0 : Nat)).length ∧
    (chunkText 1000 (List.replicate 1001 (0 : Nat))).flatten
      = List.replicate 1001 (0 : Nat) ∧
    (∀ c ∈ (chunkText 1000 (List.replicate 1001 (0 : Nat))).dropLast,
      c.length = 1000) ∧
    (∀ c ∈ chunkText 1000 (List.replicate 1001 (0 : Nat)), c ≠ []) := by
  have h : 1000 < (List.replicate 1001 (0 : Nat)).length := by
    rw [List.length_replicate]
    omega
  have := chunker_splits_long_text (List.replicate 1001 (0 : Nat)) h
  exact ⟨h, this.1, this.2.1, this.2.2.1⟩

/-- The retry loop shared by `create_tts_with_retry` and
`save_tts_with_retry` (source lines 49-62 and 66-79).  `f` is the
backend call, indexed by the 0-based attempt number; `remaining` counts
the attempts still allowed after the current one, so the loop body of
`for attempt in range(max_retries)` starts as `retryAux f 0
(max_retries - 1)` (all call sites use the default `max_retries = 3`).
The value returned is the final outcome together with the list of
attempt numbers made and the list of waits `(attempt + 1) * 2`
performed between consecutive attempts. -/
def retryAux (f : Nat → Except ε α) (attempt : Nat) :
    Nat → Except ε α × List Nat × List Nat
  | 0 =>
    match f attempt with
    | .ok a => (.ok a, [attempt], [])
    | .error e => (.error e, [attempt], [])
  | remaining + 1 =>
    match f attempt with
    | .ok a => (.ok a, [attempt], [])
    | .error _ =>
      let t := retryAux f (attempt + 1) remaining
      (t.1, attempt :: t.2.1, (attempt + 1) * 2 :: t.2.2)

/-- `create_tts_with_retry(text, language, max_retries=3)`: the gTTS
construction call under the retry policy (source lines 47-62). -/
def create_tts_with_retry (f : Nat → Except ε α) :
    Except ε α × List Nat × List Nat :=
  retryAux f 0 (3 - 1)

/-- `save_tts_with_retry(tts, output_path, max_retries=3)`: the gTTS
save call under the retry policy (source lines 64-79). -/
def save_tts_with_retry (f : Nat → Except ε α) :
    Except ε α × List Nat × List Nat :=
  retryAux f 0 (3 - 1)

/-- A deterministically failing backend exhausts the three attempts,
waits 2 then 4 between them, and propagates the attempt-2 failure. -/
theorem retryAux_all_fail (f : Nat → Except ε α) (g : Nat → ε)
    (h : ∀ a, f a = .error (g a)) :
    retryAux f 0 (3 - 1) = (.error (g 2), [0, 1, 2], [2, 4]) := by
  simp [retryAux, h 0, h 1, h 2]

/-- Claim C2: a synthesis (or persist) call whose backend fails
deterministically is attempted exactly `maxRetries = 3` times before the
last failure is propagated, with waits of `1*2` after the first failure
and `2*2` after the second (linear backoff) and no wait after the last
attempt. -/
theorem retry_exhaustion_behavior (f : Nat → Except ε α) (g : Nat → ε)
    (h : ∀ a, f a = .error (g a)) :
    create_tts_with_retry f = (.error (g 2), [0, 1, 2], [1 * 2, 2 * 2]) ∧
    save_tts_with_retry f = (.error (g 2), [0, 1, 2], [1 * 2, 2 * 2]) := by
  constructor
  · rw [create_tts_with_retry, retryAux_all_fail f g h]
  · rw [save_tts_with_retry, retryAux_all_fail f g h]

theorem retry_exhaustion_behavior_witness :
    create_tts_with_retry (fun _ => (.error "backend down" : Except String Unit))
      = (.error "backend down", [0, 1, 2], [1 * 2, 2 * 2]) ∧
    save_tts_with_retry (fun _ => (.error "backend down" : Except String Unit))
      = (.error "backend down", [0, 1, 2], [1 * 2, 2 * 2]) :=
  retry_exhaustion_behavior (fun _ => .error "backend down")
    (fun _ => "backend down") (fun _ => rfl)

/-- A backend that succeeds at some attempt: the loop stops there.  Used
to discharge the per-chunk success hypotheses of later claims. -/
theorem retryAux_first_ok (f : Nat → Except ε α) (a : α)
    (h : f 0 = .ok a) : retryAux f 0 (3 - 1) = (.ok a, [0], []) := by
  simp [retryAux, h]

/-- Mutable state threaded through the chunk loop of `convert`
(source lines 98-113): the filesystem, the `temp_files` list, the
chunks whose synthesis was started, and the inter-chunk delays slept. -/
structure LoopSt (α : Type) where
  fs : Fs
  temps : List FPath
  processed : List (List α)
  delays : List Nat

/-- The per-chunk loop of `convert` (source lines 99-113): for each
chunk, create the gTTS object and save it to the temp path
`output_path.chunk_i.mp3`, both under retry; on the first exhausted
retry the exception aborts the loop carrying the error detail; a
2-second delay is slept after every chunk but the last.  `fC i a` is
the gTTS-construction backend outcome for chunk `i` at attempt `a`
(the constructed object modelled by its audio bytes), and `fS i a` the
save outcome. -/
def chunkLoop (fC : Nat → Nat → Except String Bytes)
    (fS : Nat → Nat → Except String Unit) (total : Nat) :
    Nat → List (List α) → LoopSt α → LoopSt α × Option String
  | _, [], st => (st, none)
  | i, chunk :: rest, st =>
    let st1 : LoopSt α := { st with processed := st.processed ++ [chunk] }
    match (create_tts_with_retry (fC i)).1 with
    | .error e => (st1, some e)
    | .ok tts =>
      match (save_tts_with_retry (fS i)).1 with
      | .error e => (st1, some e)
      | .ok _ =>
        let st2 : LoopSt α := { st1 with
          fs := fsWrite (.chunk i) tts st1.fs
          temps := st1.temps ++ [FPath.chunk i] }
        let st3 : LoopSt α :=
          if i < total - 1 then { st2 with delays := st2.delays ++ [2] } else st2
        chunkLoop fC fS total (i + 1) rest st3

/-- The chunk-combination step of `convert` (source lines 117-121):
with the destination open for writing, read each temp file in order,
append its bytes to the destination, and delete it; a missing temp file
raises (modelled by the fixed error text), stopping the loop with the
remaining temp files untouched. -/
def assemble (dst : FPath) : List FPath → Fs → Fs × Except String Unit
  | [], fs => (fs, .ok ())
  | p :: rest, fs =>
    match fsRead p fs with
    | none => (fs, .error "chunk file missing")
    | some b => assemble dst rest (fsErase p (fsAppend dst b fs))

/-- Lines 115-121 as one unit: `open(output_path, 'wb')` truncates the
destination, then the temp files are concatenated into it. -/
def combineChunks (temps : List FPath) (fs : Fs) : Fs × Except String Unit :=
  assemble .out temps (fsWrite .out [] fs)

/-- The observable outcome of the background `convert` unit: the final
filesystem, the `result` dict fields (source lines 83, 130, 133), the
chunks whose synthesis was started, the inter-chunk delays, and whether
the combination step ran. -/
structure ConvOut (α : Type) where
  fs : Fs
  success : Bool
  error : Option String
  processed : List (List α)
  delays : List Nat
  assembled : Bool

/-- The body of the background `convert` unit (source lines 85-133):
texts longer than 1000 characters are chunked, synthesized chunk by
chunk to temp files and combined; shorter texts are synthesized and
saved directly to the destination path. -/
def convert (text : List α) (fC : Nat → Nat → Except String Bytes)
    (fS : Nat → Nat → Except String Unit) (fs0 : Fs) : ConvOut α :=
  if 1000 < text.length then
    match chunkLoop fC fS (chunkText 1000 text).length 0 (chunkText 1000 text)
        ⟨fs0, [], [], []⟩ with
    | (st, some e) => ⟨st.fs, false, some e, st.processed, st.delays, false⟩
    | (st, none) =>
      match combineChunks st.temps st.fs with
      | (fs2, .ok _) => ⟨fs2, true, none, st.processed, st.delays, true⟩
      | (fs2, .error e) => ⟨fs2, false, some e, st.processed, st.delays, true⟩
  else
    match (create_tts_with_retry (fC 0)).1 with
    | .error e => ⟨fs0, false, some e, [text], [], false⟩
    | .ok tts =>
      match (save_tts_with_retry (fS 0)).1 with
      | .error e => ⟨fs0, false, some e, [text], [], false⟩
      | .ok _ => ⟨fsWrite .out tts fs0, true, none, [text], [], false⟩

/-- Errors raised by `text_to_mp3_optimized` after the supervised wait
(source lines 141-146). -/
inductive SupErr where
  | timeout
  | conversion (detail : Option String)
deriving DecidableEq, Repr

/-- The supervising wait of `text_to_mp3_optimized` (source lines
135-146): the caller joins the daemon thread for at most the timeout;
if the thread is still alive it raises the timeout error without
cancelling the thread, otherwise a recorded failure is re-raised as a
conversion error and a recorded success returns normally.
`finishedInTime` is whether the background unit signalled completion
within the deadline (`not thread.is_alive()`). -/
def superviseOutcome (finishedInTime : Bool) (r : ConvOut α) :
    Except SupErr Unit :=
  if !finishedInTime then .error .timeout
  else if !r.success then .error (.conversion r.error)
  else .ok ()

/-- Claim C3: if the background unit has not signalled completion
within the timeout, the supervisor raises the timeout error, with a
result independent of the background unit's eventual outcome (the
abandoned unit keeps running but cannot influence the supervisor); it
returns normally only when the unit finished in time and recorded
success, and raises the conversion error when the unit finished and
recorded failure. -/
theorem supervisor_timeout_behavior (r r' : ConvOut α) :
    superviseOutcome false r = .error .timeout ∧
    superviseOutcome false r = superviseOutcome false r' ∧
    superviseOutcome true r ≠ .error SupErr.timeout ∧
    (superviseOutcome true r = .ok () ↔ r.success = true) ∧
    (r.success = false → superviseOutcome true r = .error (.conversion r.error)) := by
  cases hs : r.success <;>
    simp [superviseOutcome, hs]

theorem supervisor_timeout_behavior_witness :
    superviseOutcome false (⟨[], true, none, [], [], false⟩ : ConvOut Nat)
      = .error .timeout ∧
    superviseOutcome false (⟨[], true, none, [], [], false⟩ : ConvOut Nat)
      = superviseOutcome false (⟨[], false, some "boom", [], [], true⟩ : ConvOut Nat) ∧
    superviseOutcome true (⟨[], true, none, [], [], false⟩ : ConvOut Nat)
      ≠ .error SupErr.timeout ∧
    (superviseOutcome true (⟨[], true, none, [], [], false⟩ : ConvOut Nat) = .ok ()
      ↔ (⟨[], true, none, [], [], false⟩ : ConvOut Nat).success = true) ∧
    ((⟨[], true, none, [], [], false⟩ : ConvOut Nat).success = false →
      superviseOutcome true (⟨[], true, none, [], [], false⟩ : ConvOut Nat)
        = .error (.conversion (⟨[], true, none, [], [], false⟩ : ConvOut Nat).error)) :=
  supervisor_timeout_behavior ⟨[], true, none, [], [], false⟩
    ⟨[], false, some "boom", [], [], true⟩

theorem assemble_ok (c : FPath → Bytes) :
    ∀ (ps : List FPath) (fs : Fs) (init : Bytes),
      (∀ p ∈ ps, p ≠ .out) → ps.Nodup →
      (∀ p ∈ ps, fsRead p fs = some (c p)) →
      fsRead .out fs = some init →
      (assemble .out ps fs).2 = .ok () ∧
      fsRead .out (assemble .out ps fs).1 = some (init ++ (ps.map c).flatten) ∧
      (∀ p ∈ ps, fsRead p (assemble .out ps fs).1 = none) ∧
      (∀ q, q ∉ ps → q ≠ .out → fsRead q (assemble .out ps fs).1 = fsRead q fs) := by
  intro ps
  induction ps with
  | nil =>
    intro fs init _ _ _ hout
    simp [assemble, hout]
  | cons p rest ih =>
    intro fs init hno hnd hpres hout
    have hpo : p ≠ .out := hno p (List.mem_cons_self p rest)
    have hrp : fsRead p fs = some (c p) := hpres p (List.mem_cons_self p rest)
    have hpr : p ∉ rest := (List.nodup_cons.mp hnd).1
    have hstep : assemble .out (p :: rest) fs
        = assemble .out rest (fsErase p (fsAppend .out (c p) fs)) := by
      simp [assemble, hrp]
    have hout' : fsRead .out (fsErase p (fsAppend .out (c p) fs))
        = some (init ++ c p) := by
      rw [fsRead_erase_ne p .out _ (Ne.symm hpo),
        fsRead_append_self .out (c p) init fs hout]
    have hpres' : ∀ q ∈ rest, fsRead q (fsErase p (fsAppend .out (c p) fs))
        = some (c q) := by
      intro q hq
      have hqp : q ≠ p := fun hc => hpr (hc ▸ hq)
      have hqo : q ≠ .out := hno q (List.mem_cons_of_mem p hq)
      rw [fsRead_erase_ne p q _ hqp, fsRead_append_ne .out q _ fs hqo]
      exact hpres q (List.mem_cons_of_mem p hq)
    obtain ⟨hok, ho, hdel, hpre⟩ :=
      ih (fsErase p (fsAppend .out (c p) fs)) (init ++ c p)
        (fun q hq => hno q (List.mem_cons_of_mem p hq))
        (List.nodup_cons.mp hnd).2 hpres' hout'
    refine ⟨by rw [hstep]; exact hok, ?_, ?_, ?_⟩
    · rw [hstep, ho]
      simp [List.append_assoc]
    · intro q hq
      rcases List.mem_cons.mp hq with hq | hq
      · subst hq
        rw [hstep, hpre q hpr hpo, fsRead_erase_self]
      · rw [hstep]
        exact hdel q hq
    · intro q hq hqo
      have hq1 : q ≠ p := fun hc => hq (hc ▸ List.mem_cons_self p rest)
      have hq2 : q ∉ rest := fun hc => hq (List.mem_cons_of_mem p hc)
      rw [hstep, hpre q hq2 hqo, fsRead_erase_ne p q _ hq1,
        fsRead_append_ne .out q _ fs hqo]

theorem assemble_err (c : FPath → Bytes) (p : FPath) (hp : p ≠ .out) :
    ∀ (ps₁ ps₂ : List FPath) (fs : Fs),
      (∀ q ∈ ps₁, q ≠ .out) → ps₁.Nodup → p ∉ ps₁ →
      (∀ q ∈ ps₁, fsRead q fs = some (c q)) →
      fsRead p fs = none →
      (assemble .out (ps₁ ++ p :: ps₂) fs).2 = .error "chunk file missing" ∧
      (∀ q ∈ ps₁, fsRead q (assemble .out (ps₁ ++ p :: ps₂) fs).1 = none) ∧
      (∀ q, q ∉ ps₁ → q ≠ .out →
        fsRead q (assemble .out (ps₁ ++ p :: ps₂) fs).1 = fsRead q fs) := by
  intro ps₁
  induction ps₁ with
  | nil =>
    intro ps₂ fs _ _ _ _ hmiss
    simp [assemble, hmiss]
  | cons q0 rest ih =>
    intro ps₂ fs hno hnd hpn hpres hmiss
    have hq0o : q0 ≠ .out := hno q0 (List.mem_cons_self q0 rest)
    have hrq0 : fsRead q0 fs = some (c q0) := hpres q0 (List.mem_cons_self q0 rest)
    have hq0r : q0 ∉ rest := (List.nodup_cons.mp hnd).1
    have hpq0 : p ≠ q0 := fun hc => hpn (hc ▸ List.mem_cons_self q0 rest)
    have hstep : assemble .out ((q0 :: rest) ++ p :: ps₂) fs
        = assemble .out (rest ++ p :: ps₂) (fsErase q0 (fsAppend .out (c q0) fs)) := by
      simp [assemble, hrq0]
    have hpres' : ∀ q ∈ rest, fsRead q (fsErase q0 (fsAppend .out (c q0) fs))
        = some (c q) := by
      intro q hq
      have hqq0 : q ≠ q0 := fun hc => hq0r (hc ▸ hq)
      have hqo : q ≠ .out := hno q (List.mem_cons_of_mem q0 hq)
      rw [fsRead_erase_ne q0 q _ hqq0, fsRead_append_ne .out q _ fs hqo]
      exact hpres q (List.mem_cons_of_mem q0 hq)
    have hmiss' : fsRead p (fsErase q0 (fsAppend .out (c q0) fs)) = none := by
      rw [fsRead_erase_ne q0 p _ hpq0, fsRead_append_ne .out p _ fs hp]
      exact hmiss
    obtain ⟨herr, hdel, hpre⟩ :=
      ih ps₂ (fsErase q0 (fsAppend .out (c q0) fs))
        (fun q hq => hno q (List.mem_cons_of_mem q0 hq))
        (List.nodup_cons.mp hnd).2
        (fun hc => hpn (List.mem_cons_of_mem q0 hc)) hpres' hmiss'
    refine ⟨by rw [hstep]; exact herr, ?_, ?_⟩
    · intro q hq
      rcases List.mem_cons.mp hq with hq | hq
      · subst hq
        rw [hstep, hpre q hq0r hq0o, fsRead_erase_self]
      · rw [hstep]
        exact hdel q hq
    · intro q hq hqo
      have hq1 : q ≠ q0 := fun hc => hq (hc ▸ List.mem_cons_self q0 rest)
      have hq2 : q ∉ rest := fun hc => hq (List.mem_cons_of_mem q0 hc)
      rw [hstep, hpre q hq2 hqo, fsRead_erase_ne q0 q _ hq1,
        fsRead_append_ne .out q _ fs hqo]

/-- Per-chunk temp-file contents, as a function on paths. -/
def chunkBytes (b : Nat → Bytes) : FPath → Bytes
  | .chunk i => b i
  | _ => []

theorem chunk_injective : Function.Injective FPath.chunk := by
  intro a b h
  injection h

theorem chunkPaths_nodup (N : Nat) : ((List.range N).map FPath.chunk).Nodup :=
  (List.nodup_range N).map chunk_injective

theorem chunkPaths_ne_out (N : Nat) :
    ∀ p ∈ (List.range N).map FPath.chunk, p ≠ .out := by
  intro p hp
  rcases List.mem_map.mp hp with ⟨i, _, rfl⟩
  simp

/-- Claim C4: combining `N` present temp artifacts writes exactly their
byte concatenation, in chunk-index order, to the destination, and
deletes every temp artifact. -/
theorem assembly_concatenates_and_cleans (N : Nat) (b : Nat → Bytes) (fs : Fs)
    (hfs : ∀ i < N, fsRead (.chunk i) fs = some (b i)) :
    (combineChunks ((List.range N).map FPath.chunk) fs).2 = .ok () ∧
    fsRead .out (combineChunks ((List.range N).map FPath.chunk) fs).1
      = some (((List.range N).map b).flatten) ∧
    (∀ i < N,
      fsRead (.chunk i) (combineChunks ((List.range N).map FPath.chunk) fs).1
        = none) := by
  have hpres : ∀ p ∈ (List.range N).map FPath.chunk,
      fsRead p (fsWrite .out [] fs) = some (chunkBytes b p) := by
    intro p hp
    rcases List.mem_map.mp hp with ⟨i, hi, rfl⟩
    rw [fsRead_write_ne .out (.chunk i) [] fs (by simp)]
    exact hfs i (List.mem_range.mp hi)
  obtain ⟨hok, hout, hdel, _⟩ :=
    assemble_ok (chunkBytes b) ((List.range N).map FPath.chunk)
      (fsWrite .out [] fs) [] (chunkPaths_ne_out N) (chunkPaths_nodup N)
      hpres (fsRead_write_self .out [] fs)
  refine ⟨hok, ?_, ?_⟩
  · rw [combineChunks, hout]
    have hcomp : chunkBytes b ∘ FPath.chunk = b := funext fun i => rfl
    simp [List.map_map, hcomp]
  · intro i hi
    exact hdel (.chunk i) (List.mem_map.mpr ⟨i, List.mem_range.mpr hi, rfl⟩)

theorem assembly_concatenates_and_cleans_witness :
    (combineChunks ((List.range 2).map FPath.chunk)
      [(FPath.chunk 0, [10]), (FPath.chunk 1, [20, 21])]).2 = .ok () ∧
    fsRead .out (combineChunks ((List.range 2).map FPath.chunk)
      [(FPath.chunk 0, [10]), (FPath.chunk 1, [20, 21])]).1
      = some (((List.range 2).map
          (fun i => if i = 0 then [10] else [20, 21])).flatten) ∧
    (∀ i < 2,
      fsRead (.chunk i) (combineChunks ((List.range 2).map FPath.chunk)
        [(FPath.chunk 0, [10]), (FPath.chunk 1, [20, 21])]).1 = none) :=
  assembly_concatenates_and_cleans 2 (fun i => if i = 0 then [10] else [20, 21])
    [(FPath.chunk 0, [10]), (FPath.chunk 1, [20, 21])] (by decide)

/-- Counterexample to claim C6: with chunk 0 missing and chunk 1
present, assembly fails and the deletable artifact `chunk 1` is left
behind — so a failed assembly does leave temp files behind even when
their deletion is possible. -/
theorem cleanup_counterexample :
    (combineChunks [FPath.chunk 0, FPath.chunk 1] [(FPath.chunk 1, [5])]).2
      = .error "chunk file missing" ∧
    fsRead (FPath.chunk 1)
      (combineChunks [FPath.chunk 0, FPath.chunk 1] [(FPath.chunk 1, [5])]).1
      = some [5] :=
  ⟨rfl, rfl⟩

/-- Claim C6 as amended: when the temp artifact at position `k` is
missing, assembly fails, every artifact processed before position `k`
has been deleted, but the artifacts at later positions are not deleted
and remain as they were. -/
theorem cleanup_partial_deletion (N k : Nat) (b : Nat → Bytes) (fs : Fs)
    (hk : k < N)
    (hpre : ∀ j < k, fsRead (.chunk j) fs = some (b j))
    (hmiss : fsRead (.chunk k) fs = none) :
    (combineChunks ((List.range N).map FPath.chunk) fs).2
      = .error "chunk file missing" ∧
    (∀ j < k,
      fsRead (.chunk j) (combineChunks ((List.range N).map FPath.chunk) fs).1
        = none) ∧
    (∀ j, k ≤ j →
      fsRead (.chunk j) (combineChunks ((List.range N).map FPath.chunk) fs).1
        = fsRead (.chunk j) fs) := by
  have hsplit : (List.range N).map FPath.chunk
      = ((List.range k).map FPath.chunk) ++ FPath.chunk k
        :: ((List.range (N - k - 1)).map fun j => FPath.chunk (k + 1 + j)) := by
    conv_lhs => rw [show N = (k + 1) + (N - k - 1) from by omega]
    rw [List.range_add, List.range_succ]
    simp [List.map_map, Function.comp]
  have hpres : ∀ q ∈ (List.range k).map FPath.chunk,
      fsRead q (fsWrite .out [] fs) = some (chunkBytes b q) := by
    intro q hq
    rcases List.mem_map.mp hq with ⟨j, hj, rfl⟩
    rw [fsRead_write_ne .out (.chunk j) [] fs (by simp)]
    exact hpre j (List.mem_range.mp hj)
  have hkn : FPath.chunk k ∉ (List.range k).map FPath.chunk := by
    intro hc
    rcases List.mem_map.mp hc with ⟨j, hj, hjk⟩
    have h1 : j = k := chunk_injective hjk
    have h2 := List.mem_range.mp hj
    omega
  have hmiss' : fsRead (FPath.chunk k) (fsWrite .out [] fs) = none := by
    rw [fsRead_write_ne .out (.chunk k) [] fs (by simp)]
    exact hmiss
  obtain ⟨herr, hdel, hkeep⟩ :=
    assemble_err (chunkBytes b) (FPath.chunk k) (by simp)
      ((List.range k).map FPath.chunk)
      ((List.range (N - k - 1)).map fun j => FPath.chunk (k + 1 + j))
      (fsWrite .out [] fs) (chunkPaths_ne_out k) (chunkPaths_nodup k)
      hkn hpres hmiss'
  rw [combineChunks, hsplit]
  refine ⟨herr, ?_, ?_⟩
  · intro j hj
    exact hdel (.chunk j) (List.mem_map.mpr ⟨j, List.mem_range.mpr hj, rfl⟩)
  · intro j hj
    have hjn : FPath.chunk j ∉ (List.range k).map FPath.chunk := by
      intro hc
      rcases List.mem_map.mp hc with ⟨j', hj', hjj⟩
      have : j' = j := chunk_injective hjj
      have := List.mem_range.mp hj'
      omega
    rw [hkeep (.chunk j) hjn (by simp),
      fsRead_write_ne .out (.chunk j) [] fs (by simp)]

theorem cleanup_partial_deletion_witness :
    (combineChunks ((List.range 2).map FPath.chunk) [(FPath.chunk 1, [5])]).2
      = .error "chunk file missing" ∧
    (∀ j < 0,
      fsRead (.chunk j)
        (combineChunks ((List.range 2).map FPath.chunk) [(FPath.chunk 1, [5])]).1
        = none) ∧
    (∀ j, 0 ≤ j →
      fsRead (.chunk j)
        (combineChunks ((List.range 2).map FPath.chunk) [(FPath.chunk 1, [5])]).1
        = fsRead (.chunk j) [(FPath.chunk 1, [5])]) :=
  cleanup_partial_deletion 2 0 (fun _ => []) [(FPath.chunk 1, [5])]
    (by decide) (by intro j hj; omega) (by decide)

theorem chunkLoop_cons_errC (fC : Nat → Nat → Except String Bytes)
    (fS : Nat → Nat → Except String Unit) (total i : Nat) (c : List α)
    (rest : List (List α)) (st : LoopSt α) (e : String)
    (hc : (create_tts_with_retry (fC i)).1 = .error e) :
    chunkLoop fC fS total i (c :: rest) st
      = ({ st with processed := st.processed ++ [c] }, some e) := by
  simp [chunkLoop, hc]

theorem chunkLoop_cons_errS (fC : Nat → Nat → Except String Bytes)
    (fS : Nat → Nat → Except String Unit) (total i : Nat) (c : List α)
    (rest : List (List α)) (st : LoopSt α) (tts : Bytes) (e : String)
    (hc : (create_tts_with_retry (fC i)).1 = .ok tts)
    (hs : (save_tts_with_retry (fS i)).1 = .error e) :
    chunkLoop fC fS total i (c :: rest) st
      = ({ st with processed := st.processed ++ [c] }, some e) := by
  simp [chunkLoop, hc, hs]

theorem chunkLoop_cons_ok (fC : Nat → Nat → Except String Bytes)
    (fS : Nat → Nat → Except String Unit) (total i : Nat) (c : List α)
    (rest : List (List α)) (st : LoopSt α) (tts : Bytes)
    (hc : (create_tts_with_retry (fC i)).1 = .ok tts)
    (hs : (save_tts_with_retry (fS i)).1 = .ok ()) :
    chunkLoop fC fS total i (c :: rest) st
      = chunkLoop fC fS total (i + 1) rest
          (if i < total - 1 then
            ⟨fsWrite (.chunk i) tts st.fs, st.temps ++ [FPath.chunk i],
              st.processed ++ [c], st.delays ++ [2]⟩
          else
            ⟨fsWrite (.chunk i) tts st.fs, st.temps ++ [FPath.chunk i],
              st.processed ++ [c], st.delays⟩) := by
  simp only [chunkLoop, hc, hs]

theorem chunkLoop_err (fC : Nat → Nat → Except String Bytes)
    (fS : Nat → Nat → Except String Unit) (total : Nat) (e : String) :
    ∀ (k i : Nat) (cs : List (List α)) (st : LoopSt α),
      k < cs.length →
      (∀ j < k, ∃ tts, (create_tts_with_retry (fC (i + j))).1 = .ok tts ∧
        (save_tts_with_retry (fS (i + j))).1 = .ok ()) →
      ((create_tts_with_retry (fC (i + k))).1 = .error e ∨
        ∃ tts, (create_tts_with_retry (fC (i + k))).1 = .ok tts ∧
          (save_tts_with_retry (fS (i + k))).1 = .error e) →
      (chunkLoop fC fS total i cs st).2 = some e ∧
      (chunkLoop fC fS total i cs st).1.processed
        = st.processed ++ cs.take (k + 1) := by
  intro k
  induction k with
  | zero =>
    intro i cs st hk _ hfail
    cases cs with
    | nil => simp at hk
    | cons c rest =>
      rw [Nat.add_zero] at hfail
      rcases hfail with hf | ⟨tts, hok, hsv⟩
      · rw [chunkLoop_cons_errC fC fS total i c rest st e hf]
        exact ⟨rfl, rfl⟩
      · rw [chunkLoop_cons_errS fC fS total i c rest st tts e hok hsv]
        exact ⟨rfl, rfl⟩
  | succ k ih =>
    intro i cs st hk hsucc hfail
    cases cs with
    | nil => simp at hk
    | cons c rest =>
      obtain ⟨tts, hc0, hs0⟩ := hsucc 0 (by omega)
      rw [Nat.add_zero] at hc0 hs0
      rw [chunkLoop_cons_ok fC fS total i c rest st tts hc0 hs0]
      have hsucc' : ∀ j < k,
          ∃ tts, (create_tts_with_retry (fC ((i + 1) + j))).1 = .ok tts ∧
            (save_tts_with_retry (fS ((i + 1) + j))).1 = .ok () := by
        intro j hj
        have h := hsucc (j + 1) (by omega)
        rw [show i + (j + 1) = (i + 1) + j from by omega] at h
        exact h
      have hfail' : (create_tts_with_retry (fC ((i + 1) + k))).1 = .error e ∨
          ∃ tts, (create_tts_with_retry (fC ((i + 1) + k))).1 = .ok tts ∧
            (save_tts_with_retry (fS ((i + 1) + k))).1 = .error e := by
        rw [show (i + 1) + k = i + (k + 1) from by omega]
        exact hfail
      have hlen : k < rest.length := by
        simp only [List.length_cons] at hk
        omega
      by_cases hd : i < total - 1
      · rw [if_pos hd]
        obtain ⟨h1, h2⟩ := ih (i + 1) rest
          ⟨fsWrite (.chunk i) tts st.fs, st.temps ++ [FPath.chunk i],
            st.processed ++ [c], st.delays ++ [2]⟩ hlen hsucc' hfail'
        refine ⟨h1, ?_⟩
        rw [h2]
        simp
      · rw [if_neg hd]
        obtain ⟨h1, h2⟩ := ih (i + 1) rest
          ⟨fsWrite (.chunk i) tts st.fs, st.temps ++ [FPath.chunk i],
            st.processed ++ [c], st.delays⟩ hlen hsucc' hfail'
        refine ⟨h1, ?_⟩
        rw [h2]
        simp

/-- Claim C5: if every chunk before `k` synthesizes and saves
successfully but chunk `k` exhausts all retry attempts — in either
wrapper: its gTTS-creation backend fails at every attempt, or its
creation succeeds and its save backend fails at every attempt — the
conversion records the chunk-`k` attempt-2 failure detail, no chunk
after `k` is synthesized, and the supervisor re-raises the recorded
detail as a conversion error. -/
theorem chunk_failure_aborts_conversion (text : List α)
    (fC : Nat → Nat → Except String Bytes)
    (fS : Nat → Nat → Except String Unit) (fs0 : Fs) (k : Nat)
    (g : Nat → String)
    (hlen : 1000 < text.length)
    (hk : k < (chunkText 1000 text).length)
    (hprev : ∀ j < k, ∃ tts, (create_tts_with_retry (fC j)).1 = .ok tts ∧
      (save_tts_with_retry (fS j)).1 = .ok ())
    (hfail : (∀ a, fC k a = .error (g a)) ∨
      ((∃ tts, (create_tts_with_retry (fC k)).1 = .ok tts) ∧
        (∀ a, fS k a = .error (g a)))) :
    (convert text fC fS fs0).success = false ∧
    (convert text fC fS fs0).error = some (g 2) ∧
    (convert text fC fS fs0).processed = (chunkText 1000 text).take (k + 1) ∧
    superviseOutcome true (convert text fC fS fs0)
      = .error (.conversion (some (g 2))) := by
  have hfailK : (create_tts_with_retry (fC k)).1 = .error (g 2) ∨
      ∃ tts, (create_tts_with_retry (fC k)).1 = .ok tts ∧
        (save_tts_with_retry (fS k)).1 = .error (g 2) := by
    rcases hfail with h | ⟨⟨tts, hok⟩, hsv⟩
    · left
      rw [create_tts_with_retry, retryAux_all_fail (fC k) g h]
    · right
      refine ⟨tts, hok, ?_⟩
      rw [save_tts_with_retry, retryAux_all_fail (fS k) g hsv]
  have hloop := chunkLoop_err fC fS (chunkText 1000 text).length (g 2) k 0
      (chunkText 1000 text) ⟨fs0, [], [], []⟩ hk
      (by
        intro j hj
        rw [Nat.zero_add]
        exact hprev j hj)
      (by
        rw [Nat.zero_add]
        exact hfailK)
  rcases hE : chunkLoop fC fS (chunkText 1000 text).length 0 (chunkText 1000 text)
      (⟨fs0, [], [], []⟩ : LoopSt α) with ⟨st', err⟩
  have herr : err = some (g 2) := by
    have h1 := hloop.1
    rw [hE] at h1
    exact h1
  subst herr
  have hproc : st'.processed = (chunkText 1000 text).take (k + 1) := by
    have h2 := hloop.2
    rw [hE] at h2
    simpa using h2
  have hconv : convert text fC fS fs0
      = ⟨st'.fs, false, some (g 2), st'.processed, st'.delays, false⟩ := by
    rw [convert, if_pos hlen, hE]
  rw [hconv]
  exact ⟨rfl, rfl, hproc, by simp [superviseOutcome]⟩

theorem chunkText_len_1001 :
    (chunkText 1000 (List.replicate 1001 (0 : Nat))).length = 2 := by
  rw [chunkText, List.length_map, List.length_replicate,
    pyRangeStep_cons (by omega) (by omega), show (0 + 1000 : Nat) = 1000 by omega,
    pyRangeStep_cons (by omega) (by omega), pyRangeStep_nil (by omega)]
  rfl

theorem chunk_failure_aborts_conversion_witness :
    (convert (List.replicate 1001 (0 : Nat))
      (fun _ _ => .ok [7]) (fun _ _ => .error "boom") []).success = false ∧
    (convert (List.replicate 1001 (0 : Nat))
      (fun _ _ => .ok [7]) (fun _ _ => .error "boom") []).error = some "boom" ∧
    (convert (List.replicate 1001 (0 : Nat))
      (fun _ _ => .ok [7]) (fun _ _ => .error "boom") []).processed
      = (chunkText 1000 (List.replicate 1001 (0 : Nat))).take 1 ∧
    superviseOutcome true (convert (List.replicate 1001 (0 : Nat))
      (fun _ _ => .ok [7]) (fun _ _ => .error "boom") [])
      = .error (.conversion (some "boom")) :=
  chunk_failure_aborts_conversion (List.replicate 1001 (0 : Nat))
    (fun _ _ => .ok [7]) (fun _ _ => .error "boom") [] 0 (fun _ => "boom")
    (by rw [List.length_replicate]; omega)
    (by rw [chunkText_len_1001]; omega)
    (by intro j hj; exact absurd hj (by omega))
    (Or.inr ⟨⟨[7], rfl⟩, fun _ => rfl⟩)

/-- Claim C7: a text of at most 1000 characters is processed as exactly
one chunk equal to the text, synthesized and saved directly to the
destination path in a single attempt group, with no inter-chunk delay,
no temp chunk files touched, and no combination step. -/
theorem short_text_single_chunk (text : List α)
    (fC : Nat → Nat → Except String Bytes)
    (fS : Nat → Nat → Except String Unit) (fs0 : Fs) (tts : Bytes)
    (hlen : text.length ≤ 1000)
    (hc : (create_tts_with_retry (fC 0)).1 = .ok tts)
    (hs : (save_tts_with_retry (fS 0)).1 = .ok ()) :
    (convert text fC fS fs0).processed = [text] ∧
    (convert text fC fS fs0).assembled = false ∧
    (convert text fC fS fs0).delays = [] ∧
    (convert text fC fS fs0).success = true ∧
    (convert text fC fS fs0).error = none ∧
    fsRead .out (convert text fC fS fs0).fs = some tts ∧
    (∀ i, fsRead (.chunk i) (convert text fC fS fs0).fs
      = fsRead (.chunk i) fs0) := by
  have hnl : ¬ 1000 < text.length := by omega
  have hconv : convert text fC fS fs0
      = ⟨fsWrite .out tts fs0, true, none, [text], [], false⟩ := by
    rw [convert, if_neg hnl, hc, hs]
  rw [hconv]
  refine ⟨rfl, rfl, rfl, rfl, rfl, fsRead_write_self .out tts fs0, ?_⟩
  intro i
  exact fsRead_write_ne .out (.chunk i) tts fs0 (by simp)

theorem short_text_single_chunk_witness :
    (convert [0]
      (fun _ _ => (.ok [7] : Except String Bytes))
      (fun _ _ => (.ok () : Except String Unit)) []).processed = [[0]] ∧
    (convert [0] (fun _ _ => (.ok [7] : Except String Bytes))
      (fun _ _ => (.ok () : Except String Unit)) []).assembled = false ∧
    (convert [0] (fun _ _ => (.ok [7] : Except String Bytes))
      (fun _ _ => (.ok () : Except String Unit)) []).delays = [] ∧
    (convert [0] (fun _ _ => (.ok [7] : Except String Bytes))
      (fun _ _ => (.ok () : Except String Unit)) []).success = true ∧
    (convert [0] (fun _ _ => (.ok [7] : Except String Bytes))
      (fun _ _ => (.ok () : Except String Unit)) []).error = none ∧
    fsRead .out (convert [0] (fun _ _ => (.ok [7] : Except String Bytes))
      (fun _ _ => (.ok () : Except String Unit)) []).fs = some [7] ∧
    (∀ i, fsRead (.chunk i)
      (convert [0] (fun _ _ => (.ok [7] : Except String Bytes))
        (fun _ _ => (.ok () : Except String Unit)) []).fs
      = fsRead (.chunk i) []) :=
  short_text_single_chunk [0] (fun _ _ => .ok [7]) (fun _ _ => .ok ()) [] [7]
    (by decide) rfl rfl

/-- The truncation marker appended when the extracted text exceeds the
30000-character cap (source line 223). -/
def truncMarker : List Char := "... (text truncated due to length limit)".toList

/-- The length cap on extracted text (source lines 220-223):
`if len(text) > max_text_length: text = text[:max_text_length] + marker`. -/
def processText (raw : List Char) : List Char :=
  if 30000 < raw.length then raw.take 30000 ++ truncMarker else raw

/-- Python `str.strip()`: leading and trailing whitespace removed
(used by the emptiness check on source line 213). -/
def pyStrip (l : List Char) : List Char :=
  ((l.dropWhile Char.isWhitespace).reverse.dropWhile Char.isWhitespace).reverse

/-- The exception handler's file cleanup (source lines 261-268): remove
the uploaded PDF, then the MP3 destination, when present. -/
def errorCleanup (fs : Fs) : Fs :=
  fsErase .out (fsErase .pdf fs)

/-- HTTP-level outcome of the upload handler: the success payload's
`text_length` field, or an error message with its status code. -/
inductive UploadResp where
  | success (textLength : Nat)
  | failure (msg : String) (code : Nat)
deriving DecidableEq, Repr

/-- The upload handler from text extraction onward (source lines
213-254 plus the exception handler on lines 256-270): reject extracted
text that strips to empty, cap and mark long text, convert it under the
supervisor, clean up and report 500 on any conversion failure, and on
success delete the uploaded PDF and return the converted text's
length.  `finished` is whether the background unit met the deadline. -/
def upload_after_extract (raw : List Char)
    (fC : Nat → Nat → Except String Bytes)
    (fS : Nat → Nat → Except String Unit) (finished : Bool) (fs0 : Fs) :
    Fs × UploadResp :=
  if pyStrip raw = [] then
    (fsErase .pdf fs0, .failure "The PDF contains no readable text" 400)
  else
    match superviseOutcome finished (convert (processText raw) fC fS fs0),
        convert (processText raw) fC fS fs0 with
    | .ok _, r => (fsErase .pdf r.fs, .success (processText raw).length)
    | .error _, r => (errorCleanup r.fs, .failure "An error occurred during conversion" 500)

/-- Claim C8: a conversion request that ends in failure leaves no
artifact at the destination path once the handler's error cleanup has
run (assuming the request-scoped destination path was fresh, as the
uuid-prefixed names guarantee). -/
theorem failure_leaves_no_destination (raw : List Char)
    (fC : Nat → Nat → Except String Bytes)
    (fS : Nat → Nat → Except String Unit) (finished : Bool) (fs0 : Fs)
    (m : String) (cd : Nat)
    (hfresh : fsRead .out fs0 = none)
    (hfail : (upload_after_extract raw fC fS finished fs0).2 = .failure m cd) :
    fsRead .out (upload_after_extract raw fC fS finished fs0).1 = none := by
  rw [upload_after_extract]
  by_cases hstrip : pyStrip raw = []
  · rw [if_pos hstrip]
    rw [fsRead_erase_ne .pdf .out fs0 (by simp)]
    exact hfresh
  · rw [if_neg hstrip]
    cases hS : superviseOutcome finished (convert (processText raw) fC fS fs0) with
    | error se =>
      exact fsRead_erase_self .out _
    | ok u =>
      exfalso
      rw [upload_after_extract, if_neg hstrip, hS] at hfail
      simp at hfail

theorem failure_leaves_no_destination_witness :
    fsRead FPath.out ([] : Fs) = none ∧
    (upload_after_extract ['a'] (fun _ _ => .error "boom")
      (fun _ _ => .ok ()) true []).2
      = .failure "An error occurred during conversion" 500 ∧
    fsRead .out (upload_after_extract ['a'] (fun _ _ => .error "boom")
      (fun _ _ => .ok ()) true []).1 = none :=
  ⟨rfl, rfl,
    failure_leaves_no_destination ['a'] (fun _ _ => .error "boom")
      (fun _ _ => .ok ()) true [] "An error occurred during conversion" 500
      rfl rfl⟩

/-- Claim C9: extracted text longer than 30000 characters enters the
conversion pipeline as its first 30000 characters followed by the
truncation marker, shorter text enters unchanged, and the
`text_length` metadata of a successful response is the length of the
capped-and-marked text actually converted. -/
theorem truncation_and_metadata (raw : List Char)
    (fC : Nat → Nat → Except String Bytes)
    (fS : Nat → Nat → Except String Unit) (finished : Bool) (fs0 : Fs)
    (n : Nat)
    (hsucc : (upload_after_extract raw fC fS finished fs0).2 = .success n) :
    n = (processText raw).length ∧
    (30000 < raw.length → processText raw = raw.take 30000 ++ truncMarker) ∧
    (raw.length ≤ 30000 → processText raw = raw) := by
  refine ⟨?_, ?_, ?_⟩
  · rw [upload_after_extract] at hsucc
    by_cases hstrip : pyStrip raw = []
    · rw [if_pos hstrip] at hsucc
      simp at hsucc
    · rw [if_neg hstrip] at hsucc
      cases hS : superviseOutcome finished (convert (processText raw) fC fS fs0) with
      | ok u =>
        rw [hS] at hsucc
        simp at hsucc
        omega
      | error se =>
        rw [hS] at hsucc
        simp at hsucc
  · intro hlong
    rw [processText, if_pos hlong]
  · intro hshort
    rw [processText, if_neg (by omega)]

theorem truncation_and_metadata_witness :
    (upload_after_extract ['a'] (fun _ _ => (.ok [7] : Except String Bytes))
      (fun _ _ => (.ok () : Except String Unit)) true []).2 = .success 1 ∧
    (1 = (processText ['a']).length ∧
      (30000 < (['a'] : List Char).length →
        processText ['a'] = (['a'] : List Char).take 30000 ++ truncMarker) ∧
      ((['a'] : List Char).length ≤ 30000 → processText ['a'] = ['a'])) :=
  ⟨rfl,
    truncation_and_metadata ['a'] (fun _ _ => .ok [7]) (fun _ _ => .ok ())
      true [] 1 rfl⟩

/-- `allowed_file` (source lines 25-27): the filename contains a dot
and the part after the last dot, lowercased, is `pdf`
(`filename.rsplit('.', 1)[1].lower() == 'pdf'`). -/
def allowed_file (filename : List Char) : Bool :=
  filename.contains '.' &&
    ((filename.reverse.takeWhile (fun c => c ≠ '.')).reverse.map Char.toLower
      == "pdf".toList)

/-- The 10MB upload size cap of source line 175. -/
def MAX_FILE_SIZE : Nat := 10 * 1024 * 1024

/-- The upload handler's pre-save validation chain (source lines
154-178), with everything from folder creation and `file.save` onward
abstracted as the continuation `rest`: missing file, empty filename,
non-PDF extension and oversize file are each rejected with a 400
response before anything touches the filesystem. -/
def upload_file (hasFile : Bool) (filename : List Char) (size : Nat)
    (rest : Fs → Fs × UploadResp) (fs : Fs) : Fs × UploadResp :=
  if !hasFile then (fs, .failure "No file uploaded" 400)
  else if filename = [] then (fs, .failure "No file selected" 400)
  else if !(allowed_file filename) then (fs, .failure "Only PDF files are allowed" 400)
  else if MAX_FILE_SIZE < size then (fs, .failure "File size must be less than 10MB" 400)
  else rest fs

/-- Claim C10: an uploaded PDF file larger than 10MB is rejected with
the exact message and status 400, before the file is saved and before
any extraction or conversion (the continuation is never invoked, for
any continuation), with the filesystem unchanged. -/
theorem oversize_upload_rejected (filename : List Char) (size : Nat)
    (rest : Fs → Fs × UploadResp) (fs : Fs)
    (hname : filename ≠ [])
    (hext : allowed_file filename = true)
    (hsize : MAX_FILE_SIZE < size) :
    upload_file true filename size rest fs
      = (fs, .failure "File size must be less than 10MB" 400) := by
  rw [upload_file, if_neg (by simp), if_neg (by simpa using hname),
    if_neg (by simp [hext]), if_pos hsize]

theorem oversize_upload_rejected_witness :
    ("a.pdf".toList : List Char) ≠ [] ∧
    allowed_file "a.pdf".toList = true ∧
    MAX_FILE_SIZE < 10 * 1024 * 1024 + 1 ∧
    upload_file true "a.pdf".toList (10 * 1024 * 1024 + 1)
      (fun fs => ((FPath.pdf, [0]) :: fs, .success 0)) []
      = ([], .failure "File size must be less than 10MB" 400) :=
  ⟨by decide, by decide, by decide,
    oversize_upload_rejected "a.pdf".toList (10 * 1024 * 1024 + 1)
      (fun fs => ((FPath.pdf, [0]) :: fs, .success 0)) []
      (by decide) (by decide) (by decide)⟩

end PdfToMp3
